import Mathlib

/-!
Verification development for the cora tool-calling orchestration engine.

Shallow embedding of the Go sources:
  * `validateType`, `ValidateCall`, `NewToolValidator`  — argument validator
  * `cacheKey`, cache `Get`/`Set`                       — result cache
  * `RetryableToolHandler`, `isRetryable`               — retry wrapper
  * `executeSerial`, `executeParallel`, `executeBatch`  — batch executor
  * `executeToolLoop`                                   — round-trip loop controller

Go `map[string]any` values are embedded as association lists, machine
floats appearing in the validator as rationals, Go errors as a small
inductive closed under `fmt.Errorf("...: %w", e)` wrapping.
-/

/-- Go runtime values as they occur in `map[string]any` arguments and in
JSON-schema trees (`any` in the Go sources).  `f64` carries the real value
of a `float64` as a rational; `strs` is a `[]string` (whose type assertion
differs from `[]any` in Go), `list` a `[]any`, `gmap` a `map[string]any`
kept as an association list in insertion order. -/
inductive GoValue where
  | nil
  | str (s : String)
  | f64 (q : ℚ)
  | f32 (q : ℚ)
  | int (n : ℤ)
  | bool (b : Bool)
  | strs (l : List String)
  | list (l : List GoValue)
  | gmap (l : List (String × GoValue))

/-- `reflect.Kind` of an embedded Go value (`reflect.TypeOf(value).Kind()`).
`invalid` corresponds to a nil interface value, which the validator guards
against before calling `reflect.TypeOf`. -/
inductive GoKind where
  | invalid | string | float64 | float32 | int | bool | slice | map
deriving DecidableEq, Repr

def GoValue.goKind : GoValue → GoKind
  | .nil => .invalid
  | .str _ => .string
  | .f64 _ => .float64
  | .f32 _ => .float32
  | .int _ => .int
  | .bool _ => .bool
  | .strs _ => .slice
  | .list _ => .slice
  | .gmap _ => .map

/-- Validation errors, one constructor per `fmt.Errorf` site in
`ValidateCall` / `validateType`.  `typeMismatch` covers the kind-based
mismatch messages, `typeMismatchFloat` the "expected integer, got float"
message. -/
inductive ValErr where
  | unknownTool (name : String)
  | missingParameter (field : String)
  | typeMismatch (param : String) (expected : String) (got : GoKind)
  | typeMismatchFloat (param : String) (got : ℚ)
deriving DecidableEq

/-- `TypeMismatch`-class validation errors. -/
def ValErr.isTypeMismatch : ValErr → Bool
  | .typeMismatch _ _ _ => true
  | .typeMismatchFloat _ _ => true
  | _ => false

/-- The argument name a `TypeMismatch`-class error reports. -/
def ValErr.param : ValErr → String
  | .unknownTool n => n
  | .missingParameter f => f
  | .typeMismatch p _ _ => p
  | .typeMismatchFloat p _ => p

/-- Truncation toward zero, the rounding Go uses when converting a
floating-point value to an integer type. -/
def ratTrunc (q : ℚ) : ℤ := if 0 ≤ q then ⌊q⌋ else ⌈q⌉

/-- Model of the Go conversion `int(f)` on a 64-bit platform: the value is
truncated toward zero; when the truncation does not fit in `int64` the Go
spec leaves the result implementation-dependent and the mainstream
(amd64/arm64) back ends produce `math.MinInt64`. -/
def goIntOfF64 (q : ℚ) : ℤ :=
  let n := ratTrunc q
  if n < -(2 ^ 63) ∨ 2 ^ 63 ≤ n then -(2 ^ 63) else n

/-- Model of the Go conversion `float64(n)` on the values reachable in
`validateType`'s integer case: there `n` is either the in-range truncation
of a `float64` (hence exactly representable, being that float's integral
value) or `math.MinInt64 = -2^63` (a power of two, exactly representable),
so the conversion is exact and embeds as the cast `ℤ → ℚ`. -/
def f64OfGoInt (n : ℤ) : ℚ := (n : ℚ)

/-- The rationals that are values of IEEE-754 double-precision floats:
a 53-bit significand times a power of two.  (Exponent-range bounds are
irrelevant to the properties proved here.) -/
def Float64Repr (q : ℚ) : Prop := ∃ m e : ℤ, |m| ≤ 2 ^ 53 ∧ q = (m : ℚ) * 2 ^ e

/-- Embedding of `validateType` (part_003 lines 83–123): kind check per
declared JSON type; `nil` passes; an undeclared type string passes (the Go
`switch` has no default case). -/
def validateType (name : String) (value : GoValue) (expectedType : String) : Option ValErr :=
  match value with
  | .nil => none
  | _ =>
    let actualType := value.goKind
    if expectedType = "string" then
      if actualType ≠ .string then some (.typeMismatch name "string" actualType) else none
    else if expectedType = "number" then
      if actualType ≠ .float64 ∧ actualType ≠ .float32 then
        some (.typeMismatch name "number" actualType)
      else none
    else if expectedType = "integer" then
      match value with
      | .f64 f =>
        if f ≠ f64OfGoInt (goIntOfF64 f) then some (.typeMismatchFloat name f) else none
      | _ => some (.typeMismatch name "integer" actualType)
    else if expectedType = "boolean" then
      if actualType ≠ .bool then some (.typeMismatch name "boolean" actualType) else none
    else if expectedType = "array" then
      if actualType ≠ .slice then some (.typeMismatch name "array" actualType) else none
    else if expectedType = "object" then
      if actualType ≠ .map then some (.typeMismatch name "object" actualType) else none
    else none

/-- A registered tool: name plus its JSON-schema-like parameter tree
(`map[string]any`, embedded as an association list; empty list = no
schema). -/
structure CoraTool where
  Name : String
  ParametersSchema : List (String × GoValue)

/-- `NewToolValidator`: builds the name → tool map; a later duplicate name
overwrites an earlier one, as Go map assignment does. -/
def NewToolValidator (tools : List CoraTool) : String → Option CoraTool :=
  tools.foldl (fun m t => fun n => if n = t.Name then some t else m n) (fun _ => none)

/-- The `required` list extraction of `ValidateCall`: a `[]string` is taken
as is; a `[]any` is mapped entry-wise, non-string entries leaving the zero
value `""`; anything else (or an absent key) yields the empty list. -/
def extractRequired (schema : List (String × GoValue)) : List String :=
  match schema.lookup "required" with
  | some (.strs l) => l
  | some (.list l) => l.map (fun v => match v with | .str s => s | _ => "")
  | _ => []

/-- The per-argument property loop of `ValidateCall` (part_003 lines
59–78): arguments absent from `properties`, property schemas that are not
maps, and property maps without a string `"type"` are all skipped; the
first `validateType` failure is returned.  (Go iterates the argument map
in unspecified order; the embedding iterates the association list in
order, which only affects *which* mismatch is reported first.) -/
def validateArgs (properties : List (String × GoValue)) :
    List (String × GoValue) → Option ValErr
  | [] => none
  | (argName, argValue) :: rest =>
    match properties.lookup argName with
    | none => validateArgs properties rest
    | some propSchema =>
      match propSchema with
      | .gmap propMap =>
        match propMap.lookup "type" with
        | some (.str expectedType) =>
          match validateType argName argValue expectedType with
          | some e => some e
          | none => validateArgs properties rest
        | _ => validateArgs properties rest
      | _ => validateArgs properties rest

/-- Embedding of `ValidateCall` (part_003 lines 23–81). -/
def ValidateCall (tv : String → Option CoraTool) (name : String)
    (args : List (String × GoValue)) : Option ValErr :=
  match tv name with
  | none => some (.unknownTool name)
  | some tool =>
    if tool.ParametersSchema.isEmpty then none
    else
      let required := extractRequired tool.ParametersSchema
      match required.find? (fun f => (args.lookup f).isNone) with
      | some f => some (.missingParameter f)
      | none =>
        match tool.ParametersSchema.lookup "properties" with
        | some (.gmap properties) => validateArgs properties args
        | _ => none

/-- Go errors as the engine observes them: the two `context` sentinel
errors, plain `fmt.Errorf`/`errors.New` messages, `fmt.Errorf("...: %w", e)`
wrapping, and validation errors surfaced through the `error` interface. -/
inductive GoErr where
  | deadlineExceeded
  | canceled
  | named (msg : String)
  | wrap (msg : String) (inner : GoErr)
  | val (e : ValErr)
deriving DecidableEq

/-- `errors.Is(err, target)` for the sentinel targets used here: equality,
else unwrap the first argument and recurse. -/
def errorsIs (e target : GoErr) : Bool :=
  e == target ||
    match e with
    | .wrap _ inner => errorsIs inner target
    | _ => false

/-! ### Result cache (part_010)

The cache key is `sha256(name ‖ json.Marshal(args))`.  `json.Marshal`
renders a `map[string]any` with its keys sorted, which is the
canonicalization step; sha256 is a function, so equal inputs give equal
digests, and the embedding uses the hash input itself as the key. -/

/-- Sorted copy of a list of JSON object keys (Go sorts map keys before
encoding; which sorting algorithm produces the sorted sequence is
irrelevant). -/
def sortKeys (ks : List String) : List String := ks.insertionSort (· ≤ ·)

/-- JSON string quoting (escaping details do not matter for the properties
proved here, only that it is a function of the string). -/
def jsonQuote (s : String) : String := "\"" ++ s ++ "\""

def joinComma : List String → String
  | [] => ""
  | [x] => x
  | x :: xs => x ++ "," ++ joinComma xs

/-- Rendering of a JSON object from already-encoded member values: keys
sorted, each key looked up in the member map — the shape of Go's
`encoding/json` map encoder. -/
def renderObj (kvs : List (String × String)) : String :=
  "\x7b" ++
    joinComma ((sortKeys (kvs.map Prod.fst)).map
      (fun k => jsonQuote k ++ ":" ++ ((kvs.lookup k).getD "null"))) ++
  "\x7d"

mutual
/-- `json.Marshal` on embedded Go values.  Number formatting is abstracted
by `toString`; object members are encoded recursively and then rendered
with sorted keys by `renderObj`. -/
def serializeJson : GoValue → String
  | .nil => "null"
  | .str s => jsonQuote s
  | .f64 q => toString q
  | .f32 q => toString q
  | .int n => toString n
  | .bool b => if b then "true" else "false"
  | .strs l => "[" ++ joinComma (l.map jsonQuote) ++ "]"
  | .list l => "[" ++ joinComma (serializeList l) ++ "]"
  | .gmap l => renderObj (serializeEntries l)

def serializeList : List GoValue → List String
  | [] => []
  | x :: xs => serializeJson x :: serializeList xs

def serializeEntries : List (String × GoValue) → List (String × String)
  | [] => []
  | (k, v) :: xs => (k, serializeJson v) :: serializeEntries xs
end

/-- Tool-call argument maps (`map[string]any`), in insertion order. -/
abbrev Args := List (String × GoValue)

/-- `ToolCache.cacheKey` (part_010 lines 37–49): the sha256 input
`name ‖ json.Marshal(args)`.  (In the embedding marshalling never fails:
the `GoValue` domain contains no unmarshalable Go values.) -/
def cacheKey (name : String) (args : Args) : String :=
  name ++ serializeJson (.gmap args)

/-- One cache entry: result, error and insertion timestamp
(`time.Time` embedded as a `Nat` instant). -/
structure CacheEntry where
  result : GoValue
  err : Option GoErr
  timestamp : Nat

/-- A tool handler (`CoraToolHandler`): `(ctx, args) → (result, error)`.
Handlers invoked through the batch executor are embedded as pure functions
of their arguments; the context is never cancelled in the scenarios
modelled here. -/
abbrev PureHandler := Args → GoValue × Option GoErr

/-- The configuration half of `ToolExecutor` (part_006 lines 10–24):
everything except the mutable metrics and the mutable cache contents.
`cacheCfg` is `some (ttl, maxSize)` when a cache is attached. -/
structure ExecCfg where
  handlers : String → Option PureHandler
  maxRounds : Nat
  parallel : Bool
  stopOnError : Bool
  cacheCfg : Option (Nat × Nat)
  validator : Option (String → Option CoraTool)

/-- `NewToolExecutor` defaults (part_006 lines 27–34). -/
def NewToolExecutor (handlers : String → Option PureHandler) : ExecCfg :=
  { handlers := handlers, maxRounds := 5, parallel := false, stopOnError := true,
    cacheCfg := none, validator := none }

/-- The mutable state of one executor: cache contents and statistics,
metrics counters, plus an instrumentation `trace` listing the names of the
handler invocations performed (in invocation order) — the observable the
claims about "the handler is (not) invoked" are stated against. -/
structure ExecSt where
  cacheEntries : List (String × CacheEntry)
  cacheHits : Nat
  cacheMisses : Nat
  totalCalls : Nat
  successfulCalls : Nat
  failedCalls : Nat
  cachedCalls : Nat
  trace : List String

def ExecSt.init : ExecSt := ⟨[], 0, 0, 0, 0, 0, 0, []⟩

/-- `ToolCache.Get` (part_010 lines 52–75) at instant `now`: a present,
unexpired entry is a hit; an absent key and an entry older than the TTL
are both misses (expired entries are not removed). -/
def cacheGet (ttl : Nat) (st : ExecSt) (now : Nat) (name : String) (args : Args) :
    (GoValue × Option GoErr × Bool) × ExecSt :=
  let key := cacheKey name args
  match st.cacheEntries.lookup key with
  | none => ((.nil, none, false), { st with cacheMisses := st.cacheMisses + 1 })
  | some cached =>
    if now - cached.timestamp > ttl then
      ((.nil, none, false), { st with cacheMisses := st.cacheMisses + 1 })
    else
      ((cached.result, cached.err, true), { st with cacheHits := st.cacheHits + 1 })

/-- The eviction scan of `ToolCache.Set`: the first-encountered entry with
the strictly smallest timestamp (Go scans the map in unspecified order;
the embedding scans insertion order, which only affects tie-breaking). -/
def oldestCacheKey (entries : List (String × CacheEntry)) : Option String :=
  (entries.foldl
    (fun best kv =>
      match best with
      | none => some kv
      | some b => if kv.2.timestamp < b.2.timestamp then some kv else best)
    none).map Prod.fst

/-- Go map assignment `m[k] = v` on an association list: replace the
binding if present, else append. -/
def assocSet (k : String) (v : CacheEntry) :
    List (String × CacheEntry) → List (String × CacheEntry)
  | [] => [(k, v)]
  | (k', v') :: rest => if k' = k then (k, v) :: rest else (k', v') :: assocSet k v rest

/-- `ToolCache.Set` (part_010 lines 78–107) at instant `now`: when the map
has reached `maxSize` the oldest entry is evicted first, then the new
entry is stored with timestamp `now`. -/
def cacheSet (maxSize : Nat) (st : ExecSt) (now : Nat) (name : String) (args : Args)
    (result : GoValue) (err : Option GoErr) : ExecSt :=
  let key := cacheKey name args
  let entries :=
    if st.cacheEntries.length ≥ maxSize then
      match oldestCacheKey st.cacheEntries with
      | some oldest => st.cacheEntries.eraseP (fun kv => kv.1 == oldest)
      | none => st.cacheEntries
    else st.cacheEntries
  { st with cacheEntries := assocSet key ⟨result, err, now⟩ entries }

/-- `toolCallRequest` (part_006 lines 100–103). -/
structure toolCallRequest where
  name : String
  args : Args

/-- `toolCallResult` (part_006 lines 78–83). -/
structure toolCallResult where
  name : String
  result : GoValue
  err : Option GoErr
  cached : Bool

/-- The Go zero value of `toolCallResult` — what an unwritten slot of the
pre-allocated results slice holds. -/
def zeroToolCallResult : toolCallResult := ⟨"", .nil, none, false⟩

/-- `executeSingleCall` (part_006 lines 161–192): validate, consult the
cache, look up and invoke the handler, write the outcome back to the
cache.  Returns the updated state, the call's `toolCallResult` and the
error returned alongside it. -/
def executeSingleCall (cfg : ExecCfg) (st : ExecSt) (now : Nat) (call : toolCallRequest) :
    ExecSt × toolCallResult × Option GoErr :=
  match cfg.validator with
  | some tv =>
    match ValidateCall tv call.name call.args with
    | some e => (st, ⟨call.name, .nil, some (.val e), false⟩, some (.val e))
    | none => executeSingleCallPostValidate cfg st now call
  | none => executeSingleCallPostValidate cfg st now call
where
  /-- Steps 2–4 of `executeSingleCall`, after validation. -/
  executeSingleCallPostValidate (cfg : ExecCfg) (st : ExecSt) (now : Nat)
      (call : toolCallRequest) : ExecSt × toolCallResult × Option GoErr :=
    let cacheStep : ExecSt × Option (toolCallResult × Option GoErr) :=
      match cfg.cacheCfg with
      | some (ttl, _) =>
        match cacheGet ttl st now call.name call.args with
        | ((result, err, true), st') =>
          ({ st' with cachedCalls := st'.cachedCalls + 1 },
           some (⟨call.name, result, err, true⟩, err))
        | ((_, _, false), st') => (st', none)
      | none => (st, none)
    match cacheStep with
    | (st', some hit) => (st', hit)
    | (st', none) =>
      match cfg.handlers call.name with
      | none =>
        let e : GoErr := .named ("no handler for tool \"" ++ call.name ++ "\"")
        (st', ⟨call.name, .nil, some e, false⟩, some e)
      | some handler =>
        let (result, err) := handler call.args
        let st2 := { st' with trace := st'.trace ++ [call.name] }
        let st3 :=
          match cfg.cacheCfg with
          | some (_, maxSize) => cacheSet maxSize st2 now call.name call.args result err
          | none => st2
        (st3, ⟨call.name, result, err, false⟩, err)

/-- `executeSerial` (part_006 lines 105–123): calls run in order; an error
bumps `failedCalls` and, under stop-on-error, returns the pre-allocated
results slice immediately — processed slots filled, the remaining slots
still holding the zero value `toolCallResult{}` — together with a wrapped
error.  Without stop-on-error all calls run and the final error is nil. -/
def executeSerial (cfg : ExecCfg) (st : ExecSt) (now : Nat) :
    List toolCallRequest → List toolCallResult × Option GoErr × ExecSt
  | [] => ([], none, st)
  | call :: rest =>
    let (st1, r, err) := executeSingleCall cfg st now call
    match err with
    | some e =>
      let st2 := { st1 with failedCalls := st1.failedCalls + 1 }
      if cfg.stopOnError then
        (r :: List.replicate rest.length zeroToolCallResult,
         some (.wrap ("tool \"" ++ call.name ++ "\" failed") e), st2)
      else
        let (rs, e', st3) := executeSerial cfg st2 now rest
        (r :: rs, e', st3)
    | none =>
      let st2 := { st1 with successfulCalls := st1.successfulCalls + 1 }
      let (rs, e', st3) := executeSerial cfg st2 now rest
      (r :: rs, e', st3)

/-- One parallel worker body plus its per-outcome metrics update
(part_006 lines 132–143): runs call `i`, writes slot `i` of the results
slice, and appends a wrapped error to the error channel on failure. -/
def parallelWorkerStep (cfg : ExecCfg) (now : Nat) (calls : List toolCallRequest)
    (acc : ExecSt × List toolCallResult × List GoErr) (i : Nat) :
    ExecSt × List toolCallResult × List GoErr :=
  let (st, results, errs) := acc
  let call := calls.getD i ⟨"", []⟩
  let (st1, r, err) := executeSingleCall cfg st now call
  match err with
  | some e =>
    ({ st1 with failedCalls := st1.failedCalls + 1 }, results.set i r,
     errs ++ [.wrap ("tool \"" ++ call.name ++ "\" failed") e])
  | none =>
    ({ st1 with successfulCalls := st1.successfulCalls + 1 }, results.set i r, errs)

/-- `executeParallel` (part_006 lines 125–159).  The goroutines' effects
are linearized at whole-call granularity along `order`, the completion
order of the workers (any permutation of the call indices); each worker
writes its own index's slot.  All workers are awaited, and only then is
the first recorded error (head of the error channel) surfaced when
stop-on-error is set. -/
def executeParallel (cfg : ExecCfg) (st : ExecSt) (now : Nat)
    (calls : List toolCallRequest) (order : List Nat) :
    List toolCallResult × Option GoErr × ExecSt :=
  let init : ExecSt × List toolCallResult × List GoErr :=
    (st, List.replicate calls.length zeroToolCallResult, [])
  let (st', results, errs) := order.foldl (parallelWorkerStep cfg now calls) init
  (results, if cfg.stopOnError then errs.head? else none, st')

/-- `executeBatch` (part_006 lines 86–98): empty batches short-circuit;
otherwise `totalCalls` is bumped and the serial or parallel path runs.
The parallel path is entered here at the in-order schedule; arbitrary
completion orders are treated via `executeParallel` directly. -/
def executeBatch (cfg : ExecCfg) (st : ExecSt) (now : Nat) (calls : List toolCallRequest) :
    List toolCallResult × Option GoErr × ExecSt :=
  if calls.isEmpty then ([], none, st)
  else
    let st1 := { st with totalCalls := st.totalCalls + calls.length }
    if cfg.parallel then executeParallel cfg st1 now calls (List.range calls.length)
    else executeSerial cfg st1 now calls

/-- A provider round-trip: for round `r`, either a transport error, or a
response carrying the round's requested tool calls together with the text
of the message (the final answer when the tool-call list is empty).  This
is the `GenerateContent` / `CreateChatCompletion` collaborator of the two
`executeToolLoop`s. -/
abbrev ProviderFn := Nat → Except GoErr (List toolCallRequest × String)

/-- The body of `executeToolLoop` (part_000 lines 57–99 and
provider_openai_tools.go lines 21–76), by recursion on the remaining
fuel.  `round` is `roundCount` after its increment at the top of the
iteration; the limit check runs before the round's provider request is
sent.  Returns the outcome, the list of rounds whose provider request was
actually sent, and the final executor state.  The fuel is only a
termination device: `executeToolLoop` supplies `maxRounds + 1`, enough
for the limit check to fire first. -/
def toolLoopAux (cfg : ExecCfg) (provider : ProviderFn) (now : Nat) :
    Nat → Nat → ExecSt → Except GoErr String × List Nat × ExecSt
  | 0, _, st => (.error (.named "loop fuel exhausted"), [], st)
  | fuel + 1, round, st =>
    if round > cfg.maxRounds then
      (.error (.named ("exceeded maximum tool call rounds (" ++ toString cfg.maxRounds ++ ")")),
       [], st)
    else
      match provider round with
      | .error e => (.error e, [round], st)
      | .ok (calls, answer) =>
        if calls.isEmpty then (.ok answer, [round], st)
        else
          match executeBatch cfg st now calls with
          | (_, some e, st1) => (.error e, [round], st1)
          | (_, none, st1) =>
            let (out, sent, st2) := toolLoopAux cfg provider now fuel (round + 1) st1
            (out, round :: sent, st2)

/-- `executeToolLoop`: the round-trip loop controller, starting at
`roundCount = 1` with a fresh conversation. -/
def executeToolLoop (cfg : ExecCfg) (provider : ProviderFn) (now : Nat) (st : ExecSt) :
    Except GoErr String × List Nat × ExecSt :=
  toolLoopAux cfg provider now (cfg.maxRounds + 1) 1 st

/-- `RetryConfig` (part_008 lines 12–18).  Backoff durations only govern
sleeping and are not observable in the embedding. -/
structure RetryConfig where
  MaxAttempts : Nat
  InitialBackoff : Nat
  MaxBackoff : Nat
  BackoffMultiplier : ℚ
  RetryableErrors : List GoErr

/-- `isRetryable` (part_008 lines 62–75): with no explicit retryable set,
only the two `context` sentinel classes retry; otherwise membership via
`errors.Is`. -/
def isRetryable (err : GoErr) (retryableErrors : List GoErr) : Bool :=
  if retryableErrors.isEmpty then
    errorsIs err .deadlineExceeded || errorsIs err .canceled
  else
    retryableErrors.any (fun t => errorsIs err t)

/-- The `RetriesExhausted` error built at the bottom of the retry loop:
`fmt.Errorf("max retry attempts (%d) exceeded: %w", max, lastErr)`.  The
`none` case renders a nil `%w` target and is reachable only when
`MaxAttempts = 0`. -/
def retriesExhaustedErr (maxAttempts : Nat) (lastErr : Option GoErr) : GoErr :=
  match lastErr with
  | some e => .wrap ("max retry attempts (" ++ toString maxAttempts ++ ") exceeded") e
  | none => .named ("max retry attempts (" ++ toString maxAttempts ++ ") exceeded")

/-- The attempt loop of `RetryableToolHandler` (part_008 lines 30–58).
`inner k` is the outcome of the inner handler's `k`-th invocation (the
handler may be stateful in Go, so invocations are indexed); `remaining`
counts attempts left, `count` invocations made so far.  The backoff sleep
is not observable and the calling context is never cancelled in the
scenarios modelled, so the `select` always takes the timer branch. -/
def retryAux (inner : Nat → GoValue × Option GoErr) (config : RetryConfig) :
    Nat → Nat → Option GoErr → (GoValue × Option GoErr) × Nat
  | 0, count, lastErr =>
    ((.nil, some (retriesExhaustedErr config.MaxAttempts lastErr)), count)
  | remaining + 1, count, _ =>
    let (result, err) := inner count
    match err with
    | none => ((result, none), count + 1)
    | some e =>
      if isRetryable e config.RetryableErrors then
        retryAux inner config remaining (count + 1) (some e)
      else
        ((.nil, some (.wrap "non-retryable error" e)), count + 1)

/-- `RetryableToolHandler` (part_008 lines 28–60) applied to one call:
returns the wrapped handler's outcome together with the number of times
the inner handler was invoked. -/
def RetryableToolHandler (inner : Nat → GoValue × Option GoErr) (config : RetryConfig) :
    (GoValue × Option GoErr) × Nat :=
  retryAux inner config config.MaxAttempts 0 none

/-- The retry wrapping of a deterministic handler, as `WithRetry` installs
it over each registered `CoraToolHandler`. -/
def retryWrapPure (handler : PureHandler) (config : RetryConfig) : PureHandler :=
  fun args => (RetryableToolHandler (fun _ => handler args) config).1

/-! ### Aliasing of the handlers map (`WithRetry`)

`NewToolExecutor` stores the caller's `map[string]CoraToolHandler` by
reference, and `WithRetry` assigns back into that same map, so the
mutation is visible through every alias.  Go map references are embedded
as indices into a heap of association lists. -/

/-- A heap of Go handler maps; a `Nat` is a map reference. -/
abbrev HandlersHeap := Nat → List (String × PureHandler)

/-- The reference-level view of `ToolExecutor`: `NewToolExecutor` keeps
the caller's map reference (no copy). -/
structure ExecRef where
  handlersRef : Nat
  maxRounds : Nat
  parallel : Bool
  stopOnError : Bool

/-- `NewToolExecutor` at the reference level (part_006 lines 27–34). -/
def NewToolExecutorRef (handlers : Nat) : ExecRef :=
  { handlersRef := handlers, maxRounds := 5, parallel := false, stopOnError := true }

/-- `WithRetry` (part_006 lines 67–75): for each registered name, the
entry of `te.handlers` is overwritten in place with its retry-wrapped
version — an update of the referenced map object itself.  (The Go `range`
visits each key exactly once, so each handler is wrapped exactly once.) -/
def WithRetryRef (heap : HandlersHeap) (te : ExecRef) (config : RetryConfig) : HandlersHeap :=
  fun r =>
    if r = te.handlersRef then
      (heap te.handlersRef).map (fun p => (p.1, retryWrapPure p.2 config))
    else heap r

/-! ### Lock discipline of the shared executor state

The state shared across concurrent tool invocations of one executor
instance: the cache map, the cache hit/miss statistics, and the four
executor metrics counters.  Each source-level access to one of these from
a code path reachable by a parallel worker goroutine is recorded with the
mutex mode held at that line. -/

/-- The shared locations of one executor instance. -/
inductive SharedLoc where
  | cacheMap | cacheHits | cacheMisses
  | totalCalls | successfulCalls | failedCalls | cachedCalls
deriving DecidableEq, Repr

/-- Mode in which `ToolCache.mu` (the only mutex in the executor) is held
during an access. -/
inductive LockMode where
  | unlocked | readLocked | writeLocked
deriving DecidableEq, Repr

/-- One source-level access to shared executor state. -/
structure SharedAccess where
  loc : SharedLoc
  isWrite : Bool
  mode : LockMode
deriving DecidableEq, Repr

/-- Accesses performed by `ToolCache.Get` (part_010 lines 58–74): the map
read and the hit/miss counter increments all happen between `mu.RLock()`
and `mu.RUnlock()`. -/
def cacheGetAccesses : List SharedAccess :=
  [⟨.cacheMap, false, .readLocked⟩,
   ⟨.cacheMisses, true, .readLocked⟩,
   ⟨.cacheHits, true, .readLocked⟩]

/-- Accesses performed by `ToolCache.Set` (part_010 lines 84–106): the
eviction scan, the delete and the insert all happen between `mu.Lock()`
and `mu.Unlock()`. -/
def cacheSetAccesses : List SharedAccess :=
  [⟨.cacheMap, false, .writeLocked⟩,
   ⟨.cacheMap, true, .writeLocked⟩,
   ⟨.cacheMap, true, .writeLocked⟩]

/-- Accesses performed outside the cache by one parallel worker goroutine
and its `executeSingleCall` (part_006 lines 92, 136–141, 172): the
`totalCalls` bump happens before the workers fork, but `failedCalls` /
`successfulCalls` (worker body) and `cachedCalls` (cache-hit path inside
the worker) are incremented with no lock held. -/
def parallelWorkerAccesses : List SharedAccess :=
  [⟨.cachedCalls, true, .unlocked⟩,
   ⟨.failedCalls, true, .unlocked⟩,
   ⟨.successfulCalls, true, .unlocked⟩]

/-- An access is serialized by mutual exclusion when writes hold the
exclusive lock and reads hold at least the shared lock.  A write under a
merely-shared `RLock` is concurrent with other read-lock holders, and an
unlocked access is concurrent with everything. -/
def serializedByLock (a : SharedAccess) : Bool :=
  if a.isWrite then a.mode == .writeLocked else a.mode != .unlocked

/-! ### Concrete instances used by the witness theorems -/

def hOk1 : PureHandler := fun _ => (.str "result1", none)
def hOk2 : PureHandler := fun _ => (.str "result2", none)
def hOk3 : PureHandler := fun _ => (.str "result3", none)
def hBoom : PureHandler := fun _ => (.nil, some (.named "boom"))

/-- Handlers for a `[ok, fail, ok]` batch. -/
def hsSerial : String → Option PureHandler := fun n =>
  if n = "t1" then some hOk1
  else if n = "t2" then some hBoom
  else if n = "t3" then some hOk3
  else none

/-- Handlers for three independent successful calls. -/
def hsTriple : String → Option PureHandler := fun n =>
  if n = "t1" then some hOk1
  else if n = "t2" then some hOk2
  else if n = "t3" then some hOk3
  else none

def callsTriple : List toolCallRequest := [⟨"t1", []⟩, ⟨"t2", []⟩, ⟨"t3", []⟩]

/-- The calculator tool of the repository's validator test. -/
def calcTool : CoraTool :=
  ⟨"calculate",
    [("type", .str "object"),
     ("properties", .gmap [("x", .gmap [("type", .str "number")]),
                           ("y", .gmap [("type", .str "number")])]),
     ("required", .strs ["x", "y"])]⟩

def tvCalc : String → Option CoraTool := NewToolValidator [calcTool]

def retryCfgW : RetryConfig := ⟨3, 1, 10, 2, [.named "transient"]⟩

def innerTransient : Nat → GoValue × Option GoErr := fun _ => (.nil, some (.named "transient"))

def heapW : HandlersHeap := fun _ => [("t1", hOk1)]

/-- A provider that requests one tool call in every round. -/
def provW : ProviderFn := fun _ => .ok ([⟨"t1", []⟩], "final")

def cfgLoopW : ExecCfg := { NewToolExecutor hsTriple with maxRounds := 2 }

def cfgCacheW : ExecCfg := { NewToolExecutor hsTriple with cacheCfg := some (10, 5) }

/-- `NewToolExecutor(handlers).WithCache(ttl, maxSize)`: the default
executor with a result cache attached (part_006 lines 55–58). -/
def cacheExecCfg (hs : String → Option PureHandler) (ttl maxSize : Nat) : ExecCfg :=
  { handlers := hs, maxRounds := 5, parallel := false, stopOnError := true,
    cacheCfg := some (ttl, maxSize), validator := none }

/-- The outcome (`toolCallResult`, error) of one parallel worker for call
index `i`, evaluated from the initial state — with no cache configured a
call's outcome does not depend on the executor state, so this is *the*
outcome of worker `i` under any interleaving. -/
def workerOutcome (cfg : ExecCfg) (now : Nat) (calls : List toolCallRequest) (i : Nat) :
    toolCallResult × Option GoErr :=
  (executeSingleCall cfg ExecSt.init now (calls.getD i ⟨"", []⟩)).2

/-- The handler-invocation trace contributed by worker `i`. -/
def workerTrace (cfg : ExecCfg) (now : Nat) (calls : List toolCallRequest) (i : Nat) :
    List String :=
  (executeSingleCall cfg ExecSt.init now (calls.getD i ⟨"", []⟩)).1.trace

/-- The wrapped error worker `i` sends on the error channel, if any. -/
def workerErr (cfg : ExecCfg) (now : Nat) (calls : List toolCallRequest) (i : Nat) :
    Option GoErr :=
  match (workerOutcome cfg now calls i).2 with
  | some e =>
    some (.wrap ("tool \"" ++ (calls.getD i ⟨"", []⟩).name ++ "\" failed") e)
  | none => none

/-- `NewToolExecutor(hsTriple).WithParallel(true)`: a parallel executor
over the three-success handler set. -/
def parCfgW : ExecCfg :=
  { handlers := hsTriple, maxRounds := 5, parallel := true, stopOnError := true,
    cacheCfg := none, validator := none }

/-! ## Theorems -/

theorem serializeEntries_eq_map (l : List (String × GoValue)) :
    serializeEntries l = l.map (fun p => (p.1, serializeJson p.2)) := by
  induction l with
  | nil => simp [serializeEntries]
  | cons p rest ih => cases p with | mk k v => simp [serializeEntries, ih]

theorem lookup_map_value {β γ : Type} (f : β → γ) (k : String) (l : List (String × β)) :
    (l.map (fun p => (p.1, f p.2))).lookup k = (l.lookup k).map f := by
  induction l with
  | nil => simp
  | cons p rest ih =>
    cases p with | mk k' v =>
      cases hbeq : (k == k') <;> simp [List.lookup, hbeq, ih]

theorem lookup_eq_of_perm {β : Type} {l₁ l₂ : List (String × β)}
    (hp : l₁.Perm l₂) (hnd : (l₁.map Prod.fst).Nodup) (k : String) :
    l₁.lookup k = l₂.lookup k := by
  induction hp with
  | nil => rfl
  | cons x _ ih =>
    cases x with | mk kx vx =>
      simp only [List.map_cons, List.nodup_cons] at hnd
      cases hbeq : (k == kx) <;> simp [List.lookup, hbeq, ih hnd.2]
  | swap x y l =>
    cases x with | mk kx vx =>
    cases y with | mk ky vy =>
      simp only [List.map_cons, List.nodup_cons, List.mem_cons] at hnd
      have hne : ky ≠ kx := fun h => hnd.1 (Or.inl (by simp [h]))
      cases h1 : (k == ky) <;> cases h2 : (k == kx) <;>
        simp only [List.lookup, h1, h2]
      exact absurd ((eq_of_beq h1).symm.trans (eq_of_beq h2)) hne
  | trans h₁ _ ih₁ ih₂ =>
    have hnd₂ : (_ : List (String × β)).map Prod.fst |>.Nodup :=
      ((h₁.map Prod.fst).nodup_iff).mp hnd
    exact (ih₁ hnd).trans (ih₂ hnd₂)

theorem sortKeys_eq_of_perm {ks₁ ks₂ : List String} (hp : ks₁.Perm ks₂) :
    sortKeys ks₁ = sortKeys ks₂ := by
  unfold sortKeys
  exact List.eq_of_perm_of_sorted
    ((List.perm_insertionSort _ ks₁).trans (hp.trans (List.perm_insertionSort _ ks₂).symm))
    (List.sorted_insertionSort _ ks₁) (List.sorted_insertionSort _ ks₂)

theorem renderObj_eq_of_perm {kvs₁ kvs₂ : List (String × String)}
    (hp : kvs₁.Perm kvs₂) (hnd : (kvs₁.map Prod.fst).Nodup) :
    renderObj kvs₁ = renderObj kvs₂ := by
  unfold renderObj
  rw [sortKeys_eq_of_perm (hp.map Prod.fst)]
  have hmap :
      List.map (fun k => jsonQuote k ++ ":" ++ (List.lookup k kvs₁).getD "null")
          (sortKeys (kvs₂.map Prod.fst))
        = List.map (fun k => jsonQuote k ++ ":" ++ (List.lookup k kvs₂).getD "null")
          (sortKeys (kvs₂.map Prod.fst)) :=
    List.map_congr_left (fun k _ => by rw [lookup_eq_of_perm hp hnd k])
  rw [hmap]

/-- C7: the cache key is a function of the canonicalized arguments — two
argument maps holding the same key-value pairs (in any insertion order)
derive the identical cache key, because `json.Marshal` renders map keys in
sorted order before the bytes are hashed. -/
theorem cacheKey_canonical (name : String) (args₁ args₂ : Args)
    (hperm : args₁.Perm args₂) (hnd : (args₁.map Prod.fst).Nodup) :
    cacheKey name args₁ = cacheKey name args₂ := by
  unfold cacheKey
  congr 1
  show serializeJson (.gmap args₁) = serializeJson (.gmap args₂)
  rw [serializeJson, serializeJson]
  refine renderObj_eq_of_perm ?_ ?_
  · rw [serializeEntries_eq_map, serializeEntries_eq_map]
    exact hperm.map _
  · rw [serializeEntries_eq_map]
    have : (args₁.map (fun p => (p.1, serializeJson p.2))).map Prod.fst
        = args₁.map Prod.fst := by
      simp [List.map_map]
    rw [this]
    exact hnd

/-- Witness for C7 at a concrete pair of permuted argument maps. -/
theorem cacheKey_canonical_witness :
    ([("a", GoValue.int 1), ("b", GoValue.int 2)] : Args).Perm
        [("b", GoValue.int 2), ("a", GoValue.int 1)] ∧
    (([("a", GoValue.int 1), ("b", GoValue.int 2)] : Args).map Prod.fst).Nodup ∧
    cacheKey "t" [("a", GoValue.int 1), ("b", GoValue.int 2)]
      = cacheKey "t" [("b", GoValue.int 2), ("a", GoValue.int 1)] := by
  have hperm : ([("a", GoValue.int 1), ("b", GoValue.int 2)] : Args).Perm
      [("b", GoValue.int 2), ("a", GoValue.int 1)] :=
    List.Perm.swap _ _ _
  have hnd : (([("a", GoValue.int 1), ("b", GoValue.int 2)] : Args).map Prod.fst).Nodup := by
    simp
  exact ⟨hperm, hnd, cacheKey_canonical "t" _ _ hperm hnd⟩

/-- C10: `WithRetry` mutates the caller-supplied handlers map in place.
`NewToolExecutor` keeps the caller's map reference `r` without copying,
and `WithRetry` writes the wrapped handlers back into the referenced map,
so a lookup through the caller's original reference `r` afterwards yields
the retry-wrapped handler, not the original bare one. -/
theorem WithRetry_mutates_caller_map (heap : HandlersHeap) (r : Nat) (config : RetryConfig)
    (name : String) (h : PureHandler) (hlook : (heap r).lookup name = some h) :
    ((WithRetryRef heap (NewToolExecutorRef r) config) r).lookup name
      = some (retryWrapPure h config) := by
  have hmap : (WithRetryRef heap (NewToolExecutorRef r) config) r
      = (heap r).map (fun p => (p.1, retryWrapPure p.2 config)) := by
    unfold WithRetryRef NewToolExecutorRef
    simp
  rw [hmap]
  exact (lookup_map_value (fun hh => retryWrapPure hh config) name (heap r)).trans
    (by rw [hlook]; rfl)

/-- Witness for C10 at a concrete one-entry handlers map. -/
theorem WithRetry_mutates_caller_map_witness :
    (heapW 0).lookup "t1" = some hOk1 ∧
    ((WithRetryRef heapW (NewToolExecutorRef 0) retryCfgW) 0).lookup "t1"
      = some (retryWrapPure hOk1 retryCfgW) := by
  have hlook : (heapW 0).lookup "t1" = some hOk1 := by
    simp [heapW, List.lookup]
  exact ⟨hlook, WithRetry_mutates_caller_map heapW 0 retryCfgW "t1" hOk1 hlook⟩

/-- C9: the executor's shared counters are NOT all serialized by a lock.
`ToolCache.Set` honours mutual exclusion (all map accesses under the
exclusive lock), but one parallel worker goroutine increments
`cachedCalls` / `failedCalls` / `successfulCalls` holding no lock at all,
and `ToolCache.Get` increments the shared `hits` / `misses` counters while
holding only the shared read lock, under which any number of concurrent
readers run these writes simultaneously. -/
theorem sharedCounters_not_lock_serialized :
    cacheSetAccesses.all serializedByLock = true ∧
    (∃ a ∈ parallelWorkerAccesses, a.isWrite = true ∧ a.mode = .unlocked ∧
      serializedByLock a = false) ∧
    (∃ a ∈ cacheGetAccesses, a.isWrite = true ∧ a.mode = .readLocked ∧
      serializedByLock a = false) := by
  refine ⟨by decide, ⟨⟨.failedCalls, true, .unlocked⟩, ?_⟩,
    ⟨⟨.cacheMisses, true, .readLocked⟩, ?_⟩⟩ <;> decide

theorem retryAux_allFail (inner : Nat → GoValue × Option GoErr) (config : RetryConfig)
    (errf : Nat → GoErr)
    (hfail : ∀ k, k < config.MaxAttempts → (inner k).2 = some (errf k))
    (hretry : ∀ k, k < config.MaxAttempts →
      isRetryable (errf k) config.RetryableErrors = true) :
    ∀ rem count lastErr, count + rem = config.MaxAttempts → 0 < rem →
      retryAux inner config rem count lastErr
        = ((.nil, some (.wrap
            ("max retry attempts (" ++ toString config.MaxAttempts ++ ") exceeded")
            (errf (config.MaxAttempts - 1)))), config.MaxAttempts) := by
  intro rem
  induction rem with
  | zero => intro count lastErr _ h0; exact absurd h0 (by simp)
  | succ r ih =>
    intro count lastErr hsum _
    have hcount : count < config.MaxAttempts := by omega
    have hpair : inner count = ((inner count).1, (inner count).2) := rfl
    rw [retryAux, hpair, hfail count hcount]
    simp only [hretry count hcount, if_true]
    cases r with
    | zero =>
      have hM : count + 1 = config.MaxAttempts := by omega
      have hM1 : count = config.MaxAttempts - 1 := by omega
      rw [retryAux, retriesExhaustedErr, hM, hM1]
    | succ s =>
      exact ih (count + 1) (some (errf count)) (by omega) (by omega)

/-- C6: the retry wrapper's attempt accounting.  (1) An inner handler that
fails with a retryable error on every attempt is invoked exactly
`MaxAttempts` times, after which the wrapper fails with the
`RetriesExhausted` error wrapping the last attempt's error.  (2) An inner
handler whose first failure is non-retryable is invoked exactly once and
the wrapper fails with the `NonRetryable` error wrapping the cause.
(3) With no explicit retryable set configured, exactly the
timeout/cancellation sentinel classes count as retryable. -/
theorem retry_bound_spec :
    (∀ (inner : Nat → GoValue × Option GoErr) (config : RetryConfig) (errf : Nat → GoErr),
      1 ≤ config.MaxAttempts →
      (∀ k, k < config.MaxAttempts → (inner k).2 = some (errf k)) →
      (∀ k, k < config.MaxAttempts → isRetryable (errf k) config.RetryableErrors = true) →
      RetryableToolHandler inner config
        = ((.nil, some (.wrap
            ("max retry attempts (" ++ toString config.MaxAttempts ++ ") exceeded")
            (errf (config.MaxAttempts - 1)))), config.MaxAttempts)) ∧
    (∀ (inner : Nat → GoValue × Option GoErr) (config : RetryConfig) (e : GoErr),
      (inner 0).2 = some e → isRetryable e config.RetryableErrors = false →
      1 ≤ config.MaxAttempts →
      RetryableToolHandler inner config
        = ((.nil, some (.wrap "non-retryable error" e)), 1)) ∧
    (∀ e : GoErr,
      isRetryable e [] = (errorsIs e .deadlineExceeded || errorsIs e .canceled)) := by
  refine ⟨?_, ?_, ?_⟩
  · intro inner config errf hM hfail hretry
    exact retryAux_allFail inner config errf hfail hretry config.MaxAttempts 0 none
      (by omega) (by omega)
  · intro inner config e hfail0 hnonretry hM
    obtain ⟨m, hm⟩ : ∃ m, config.MaxAttempts = m + 1 :=
      ⟨config.MaxAttempts - 1, by omega⟩
    have hpair : inner 0 = ((inner 0).1, (inner 0).2) := rfl
    rw [RetryableToolHandler, hm, retryAux, hpair, hfail0]
    simp [hnonretry]
  · intro e
    simp [isRetryable]

/-- Witness for C6 part (1): an always-failing handler with an explicit
retryable error set and `MaxAttempts = 3` is invoked exactly 3 times and
ends in the `RetriesExhausted` error. -/
theorem retry_bound_spec_witness :
    1 ≤ retryCfgW.MaxAttempts ∧
    RetryableToolHandler innerTransient retryCfgW
      = ((.nil, some (.wrap ("max retry attempts (" ++ toString (3 : Nat) ++ ") exceeded")
          (.named "transient"))), 3) := by
  refine ⟨by decide, ?_⟩
  exact retry_bound_spec.1 innerTransient retryCfgW (fun _ => .named "transient")
    (by decide) (fun k _ => rfl)
    (fun k _ => by
      show isRetryable (.named "transient") retryCfgW.RetryableErrors = true
      decide)

theorem ratTrunc_intCast (n : ℤ) : ratTrunc ((n : ℚ)) = n := by
  unfold ratTrunc
  by_cases h : (0 : ℚ) ≤ (n : ℚ) <;> simp [h, Int.floor_intCast, Int.ceil_intCast]

theorem goInt_roundTrip_iff (q : ℚ) :
    q = f64OfGoInt (goIntOfF64 q) ↔ (q.den = 1 ∧ -(2 ^ 63) ≤ q ∧ q < 2 ^ 63) := by
  unfold f64OfGoInt goIntOfF64
  by_cases hc : ratTrunc q < -(2 ^ 63) ∨ 2 ^ 63 ≤ ratTrunc q
  · simp only [hc, if_true]
    constructor
    · intro hq
      exfalso
      have ht : ratTrunc q = -(2 ^ 63) := by rw [hq, ratTrunc_intCast]
      rw [ht] at hc
      omega
    · rintro ⟨hden, hlo, hhi⟩
      exfalso
      have hnum : ((q.num : ℚ)) = q := Rat.coe_int_num_of_den_eq_one hden
      have ht : ratTrunc q = q.num := by
        have h0 := ratTrunc_intCast q.num
        rw [hnum] at h0
        exact h0
      have hlo' : -(2 ^ 63 : ℤ) ≤ q.num := by
        have := hlo
        rw [← hnum] at this
        exact_mod_cast this
      have hhi' : (q.num : ℤ) < 2 ^ 63 := by
        have := hhi
        rw [← hnum] at this
        exact_mod_cast this
      rw [ht] at hc
      omega
  · simp only [hc, if_false]
    push_neg at hc
    obtain ⟨hlo, hhi⟩ := hc
    constructor
    · intro hq
      have hden : q.den = 1 := by
        rw [hq]
        exact Rat.den_intCast _
      refine ⟨hden, ?_, ?_⟩
      · rw [hq]
        calc (-(2 ^ 63) : ℚ) = ((-(2 ^ 63) : ℤ) : ℚ) := by push_cast; ring
        _ ≤ ((ratTrunc q : ℤ) : ℚ) := by exact_mod_cast hlo
      · rw [hq]
        calc ((ratTrunc q : ℤ) : ℚ) < ((2 ^ 63 : ℤ) : ℚ) := by exact_mod_cast hhi
        _ = (2 ^ 63 : ℚ) := by push_cast; ring
    · rintro ⟨hden, _, _⟩
      have hnum : ((q.num : ℚ)) = q := Rat.coe_int_num_of_den_eq_one hden
      have ht : ratTrunc q = q.num := by
        have h0 := ratTrunc_intCast q.num
        rw [hnum] at h0
        exact h0
      rw [ht, hnum]

/-- C8 counterexample: `2^70` is a representable `float64` value with no
fractional part, yet the integer check rejects it — the conversion
`int(f)` is out of the 64-bit range, so `f != float64(int(f))` holds and
`validateType` reports a type mismatch.  This refutes "a whole-numbered
value passes for every representable whole number regardless of
magnitude". -/
theorem validateType_integer_large_whole_rejected :
    Float64Repr ((2 : ℚ) ^ 70) ∧ ((2 : ℚ) ^ 70).den = 1 ∧
    validateType "big" (.f64 ((2 : ℚ) ^ 70)) "integer"
      = some (.typeMismatchFloat "big" ((2 : ℚ) ^ 70)) := by
  refine ⟨⟨1, 70, by norm_num, by norm_num⟩, by decide, by decide⟩

/-- C8 (amended): a `float64` argument validated against schema type
`"integer"` passes if and only if it has no fractional part AND its value
lies in `[-2^63, 2^63)`, the range on which the Go conversion `int(f)`
round-trips; whole values at or beyond `2^63` in magnitude are rejected
with a `TypeMismatch`, as are all values with a fractional part. -/
theorem validateType_integer_spec (name : String) (q : ℚ) (h' : Float64Repr q) :
    validateType name (.f64 q) "integer" = none ↔
      (q.den = 1 ∧ -(2 ^ 63) ≤ q ∧ q < 2 ^ 63) := by
  have hval : validateType name (.f64 q) "integer"
      = if q ≠ f64OfGoInt (goIntOfF64 q) then some (.typeMismatchFloat name q)
        else none := rfl
  rw [hval]
  by_cases hd : q = f64OfGoInt (goIntOfF64 q)
  · rw [if_neg (not_not_intro hd)]
    exact ⟨fun _ => (goInt_roundTrip_iff q).mp hd, fun _ => rfl⟩
  · rw [if_pos hd]
    constructor
    · intro hsome
      exact Option.noConfusion hsome
    · intro hrhs
      exact absurd ((goInt_roundTrip_iff q).mpr hrhs) hd

/-- Witness for C8's amended statement at the whole in-range value `3`. -/
theorem validateType_integer_spec_witness :
    Float64Repr (3 : ℚ) ∧
    (validateType "x" (.f64 3) "integer" = none ↔
      ((3 : ℚ).den = 1 ∧ -(2 ^ 63) ≤ (3 : ℚ) ∧ (3 : ℚ) < 2 ^ 63)) := by
  have h3 : Float64Repr (3 : ℚ) := ⟨3, 0, by norm_num, by norm_num⟩
  exact ⟨h3, validateType_integer_spec "x" 3 h3⟩

/-- C2 counterexample: for the concrete batch `[ok, fail, ok]` under
stop-on-error, `executeSerial` returns the *full-length* pre-allocated
results slice — three entries, the slot past the failing call still
holding the zero-value `toolCallResult` — rather than truncating the
collection after the failing call. -/
theorem executeSerial_no_truncation_counterexample :
    (executeBatch (NewToolExecutor hsSerial) ExecSt.init 0 callsTriple).1.length = 3 ∧
    (executeBatch (NewToolExecutor hsSerial) ExecSt.init 0 callsTriple).1.getD 2
        zeroToolCallResult = zeroToolCallResult ∧
    (executeBatch (NewToolExecutor hsSerial) ExecSt.init 0 callsTriple).2.1
      = some (.wrap "tool \"t2\" failed" (.named "boom")) := by
  refine ⟨?_, ?_, ?_⟩ <;>
    simp [executeBatch, executeSerial, executeSingleCall,
      executeSingleCall.executeSingleCallPostValidate, NewToolExecutor, hsSerial,
      hOk1, hBoom, hOk3, callsTriple, zeroToolCallResult]

/-- C2 (amended): for every batch `[ok, fail, ok]` executed serially with
stop-on-error enabled, `executeBatch` returns after the failing call with
a non-nil wrapped error, the third handler is never invoked, and the
returned collection keeps its full length with the slot past the failing
call left as the zero-value `toolCallResult` (not truncated); with
stop-on-error disabled, all three handlers execute and the returned
collection is `[success, error, success]` in request order with a nil
batch error. -/
theorem executeBatch_stop_on_error_spec
    (hs : String → Option PureHandler) (n1 n2 n3 : String) (a1 a2 a3 : Args)
    (h1 h2 h3 : PureHandler) (v1 v2 v3 : GoValue) (e2 : GoErr) (st : ExecSt)
    (hh1 : hs n1 = some h1) (hh2 : hs n2 = some h2) (hh3 : hs n3 = some h3)
    (ho1 : h1 a1 = (v1, none)) (ho2 : h2 a2 = (v2, some e2)) (ho3 : h3 a3 = (v3, none)) :
    ((executeBatch (NewToolExecutor hs) st 0 [⟨n1, a1⟩, ⟨n2, a2⟩, ⟨n3, a3⟩]).1
        = [⟨n1, v1, none, false⟩, ⟨n2, v2, some e2, false⟩, zeroToolCallResult] ∧
      (executeBatch (NewToolExecutor hs) st 0 [⟨n1, a1⟩, ⟨n2, a2⟩, ⟨n3, a3⟩]).2.1
        = some (.wrap ("tool \"" ++ n2 ++ "\" failed") e2) ∧
      (executeBatch (NewToolExecutor hs) st 0 [⟨n1, a1⟩, ⟨n2, a2⟩, ⟨n3, a3⟩]).2.2.trace
        = st.trace ++ [n1, n2]) ∧
    ((executeBatch { NewToolExecutor hs with stopOnError := false } st 0
          [⟨n1, a1⟩, ⟨n2, a2⟩, ⟨n3, a3⟩]).1
        = [⟨n1, v1, none, false⟩, ⟨n2, v2, some e2, false⟩, ⟨n3, v3, none, false⟩] ∧
      (executeBatch { NewToolExecutor hs with stopOnError := false } st 0
          [⟨n1, a1⟩, ⟨n2, a2⟩, ⟨n3, a3⟩]).2.1 = none ∧
      (executeBatch { NewToolExecutor hs with stopOnError := false } st 0
          [⟨n1, a1⟩, ⟨n2, a2⟩, ⟨n3, a3⟩]).2.2.trace = st.trace ++ [n1, n2, n3]) := by
  refine ⟨⟨?_, ?_, ?_⟩, ⟨?_, ?_, ?_⟩⟩ <;>
    simp [executeBatch, executeSerial, executeSingleCall,
      executeSingleCall.executeSingleCallPostValidate, NewToolExecutor,
      hh1, hh2, hh3, ho1, ho2, ho3, zeroToolCallResult]

/-- Witness for C2's amended statement at the concrete `[ok, fail, ok]`
batch of `hsSerial`. -/
theorem executeBatch_stop_on_error_spec_witness :
    hsSerial "t1" = some hOk1 ∧ hsSerial "t2" = some hBoom ∧ hsSerial "t3" = some hOk3 ∧
    hOk1 [] = (.str "result1", none) ∧ hBoom [] = (.nil, some (.named "boom")) ∧
    hOk3 [] = (.str "result3", none) ∧
    (executeBatch (NewToolExecutor hsSerial) ExecSt.init 0 callsTriple).1
      = [⟨"t1", .str "result1", none, false⟩, ⟨"t2", .nil, some (.named "boom"), false⟩,
         zeroToolCallResult] := by
  have hh1 : hsSerial "t1" = some hOk1 := by simp [hsSerial]
  have hh2 : hsSerial "t2" = some hBoom := by simp [hsSerial]
  have hh3 : hsSerial "t3" = some hOk3 := by simp [hsSerial]
  refine ⟨hh1, hh2, hh3, rfl, rfl, rfl, ?_⟩
  exact (executeBatch_stop_on_error_spec hsSerial "t1" "t2" "t3" [] [] []
    hOk1 hBoom hOk3 (.str "result1") .nil (.str "result3") (.named "boom") ExecSt.init
    hh1 hh2 hh3 rfl rfl rfl).1.1


/-- C5: cache idempotence.  With the cache enabled, the same (name,
arguments) call issued twice within the TTL invokes the underlying
handler exactly once: the first batch misses, executes the handler and
stores the outcome; the second batch is served from the cache with a
`toolCallResult` carrying the identical result value and error and
`cached = true`, and the handler-invocation trace still holds the single
first invocation. -/
theorem cache_idempotent_spec (hs : String → Option PureHandler) (name : String)
    (h : PureHandler) (args : Args) (ttl maxSize t1 t2 : Nat)
    (hh : hs name = some h) (ht12 : t1 ≤ t2) (httl : t2 - t1 ≤ ttl) :
    ((executeBatch (cacheExecCfg hs ttl maxSize) ExecSt.init t1 [⟨name, args⟩]).1
      = [⟨name, (h args).1, (h args).2, false⟩]) ∧
    ((executeBatch (cacheExecCfg hs ttl maxSize)
        (executeBatch (cacheExecCfg hs ttl maxSize) ExecSt.init t1 [⟨name, args⟩]).2.2
        t2 [⟨name, args⟩]).1
      = [⟨name, (h args).1, (h args).2, true⟩]) ∧
    ((executeBatch (cacheExecCfg hs ttl maxSize)
        (executeBatch (cacheExecCfg hs ttl maxSize) ExecSt.init t1 [⟨name, args⟩]).2.2
        t2 [⟨name, args⟩]).2.2.trace
      = [name]) := by
  rcases hsplit : h args with ⟨r0, e0⟩
  have hgt : ¬ t2 - t1 > ttl := by omega
  by_cases hms : 0 ≥ maxSize <;>
    cases e0 <;>
      simp [executeBatch, executeSerial, executeSingleCall,
        executeSingleCall.executeSingleCallPostValidate, cacheExecCfg, cacheGet, cacheSet,
        oldestCacheKey, assocSet, List.lookup, hh, hsplit, hgt, hms, ExecSt.init]

/-- Witness for C5 at a concrete cached call (`ttl = 10`, issued at
instants 0 and 7). -/
theorem cache_idempotent_spec_witness :
    hsTriple "t1" = some hOk1 ∧ (0 : Nat) ≤ 7 ∧ 7 - 0 ≤ 10 ∧
    ((executeBatch (cacheExecCfg hsTriple 10 5)
        (executeBatch (cacheExecCfg hsTriple 10 5) ExecSt.init 0 [⟨"t1", []⟩]).2.2
        7 [⟨"t1", []⟩]).1
      = [⟨"t1", (hOk1 []).1, (hOk1 []).2, true⟩]) := by
  have hh : hsTriple "t1" = some hOk1 := by simp [hsTriple]
  exact ⟨hh, by omega, by omega,
    (cache_idempotent_spec hsTriple "t1" hOk1 [] 10 5 0 7 hh (by omega) (by omega)).2.1⟩

set_option maxHeartbeats 1600000 in
theorem validateType_err (name : String) (v : GoValue) (t : String) (e : ValErr)
    (h : validateType name v t = some e) :
    e.isTypeMismatch = true ∧ e.param = name := by
  unfold validateType at h
  cases v <;>
    first
      | exact Option.noConfusion h
      | ((repeat' split at h) <;>
          first
            | exact Option.noConfusion h
            | (injection h with h1; subst h1; exact ⟨rfl, rfl⟩))

theorem validateArgs_err_shape (properties : List (String × GoValue)) :
    ∀ (args : List (String × GoValue)) (e : ValErr),
      validateArgs properties args = some e →
      e.isTypeMismatch = true ∧ (properties.lookup e.param).isSome := by
  intro args
  induction args with
  | nil => intro e h; exact Option.noConfusion h
  | cons p rest ih =>
    intro e h
    cases p with | mk a v =>
    rw [validateArgs] at h
    cases hl : properties.lookup a with
    | none =>
      simp only [hl] at h
      exact ih e h
    | some ps =>
      simp only [hl] at h
      cases ps <;> try exact ih e h
      rename_i pm
      cases hty : pm.lookup "type" with
      | none =>
        simp only [hty] at h
        exact ih e h
      | some tv0 =>
        simp only [hty] at h
        cases tv0 <;> try exact ih e h
        rename_i t
        cases hvt : validateType a v t with
        | none =>
          simp only [hvt] at h
          exact ih e h
        | some e0 =>
          simp only [hvt] at h
          injection h with h1
          obtain ⟨hclass, hparam⟩ := validateType_err a v t e0 hvt
          subst h1
          refine ⟨hclass, ?_⟩
          rw [hparam, hl]
          rfl

theorem validateArgs_mem_err (properties : List (String × GoValue)) :
    ∀ (args : List (String × GoValue)) (a : String) (v : GoValue)
      (pm : List (String × GoValue)) (t : String),
      (a, v) ∈ args → properties.lookup a = some (.gmap pm) →
      pm.lookup "type" = some (.str t) → validateType a v t ≠ none →
      ∃ e, validateArgs properties args = some e := by
  intro args
  induction args with
  | nil =>
    intro a v pm t hmem _ _ _
    exact absurd hmem (List.not_mem_nil _)
  | cons p rest ih =>
    intro a v pm t hmem hprop hty hbad
    cases p with | mk a0 v0 =>
    rcases List.mem_cons.mp hmem with heq | hmem'
    · injection heq with h1 h2
      subst h1
      subst h2
      cases hvt : validateType a v t with
      | none => exact absurd hvt hbad
      | some e0 =>
        refine ⟨e0, ?_⟩
        rw [validateArgs]
        simp only [hprop, hty, hvt]
    · obtain ⟨e1, he1⟩ := ih a v pm t hmem' hprop hty hbad
      rw [validateArgs]
      cases hl : properties.lookup a0 with
      | none =>
        simp only [hl]
        exact ⟨e1, he1⟩
      | some ps =>
        simp only [hl]
        cases ps <;> try exact ⟨e1, he1⟩
        rename_i pm0
        cases hty0 : pm0.lookup "type" with
        | none =>
          simp only [hty0]
          exact ⟨e1, he1⟩
        | some tv0 =>
          simp only [hty0]
          cases tv0 <;> try exact ⟨e1, he1⟩
          rename_i t0
          cases hvt0 : validateType a0 v0 t0 with
          | none =>
            simp only [hvt0]
            exact ⟨e1, he1⟩
          | some e0 =>
            simp only [hvt0]
            exact ⟨e0, rfl⟩

/-- C4: validator behaviour.  (1) If the schema's required list names a
field absent from the arguments, `ValidateCall` fails with a
`MissingParameter` error.  (2) If every required field is present and some
argument that the schema's property map declares (with a string `type`)
fails the type check, `ValidateCall` fails with a `TypeMismatch`-class
error.  (3) Open-world policy: every validation failure is either a
`MissingParameter` for a declared required field or a `TypeMismatch` for
an argument name that *is* declared in the property map — arguments whose
names are outside the schema never cause a failure. -/
theorem ValidateCall_spec (tv : String → Option CoraTool) (name : String) (tool : CoraTool)
    (args : List (String × GoValue)) (htool : tv name = some tool) :
    ((∃ f ∈ extractRequired tool.ParametersSchema, (args.lookup f).isNone) →
      ∃ f', ValidateCall tv name args = some (.missingParameter f')) ∧
    ((∀ f ∈ extractRequired tool.ParametersSchema, (args.lookup f).isSome) →
      ∀ (properties : List (String × GoValue)) (a : String) (v : GoValue)
        (pm : List (String × GoValue)) (t : String),
        tool.ParametersSchema.lookup "properties" = some (.gmap properties) →
        (a, v) ∈ args → properties.lookup a = some (.gmap pm) →
        pm.lookup "type" = some (.str t) → validateType a v t ≠ none →
        ∃ e, ValidateCall tv name args = some e ∧ e.isTypeMismatch = true) ∧
    (∀ e, ValidateCall tv name args = some e →
      (∃ f, e = .missingParameter f ∧ f ∈ extractRequired tool.ParametersSchema) ∨
      (e.isTypeMismatch = true ∧
        ∃ properties, tool.ParametersSchema.lookup "properties" = some (.gmap properties) ∧
          (properties.lookup e.param).isSome)) := by
  refine ⟨?_, ?_, ?_⟩
  · rintro ⟨f, hf, hnone⟩
    have hne : tool.ParametersSchema.isEmpty = false := by
      cases hsch : tool.ParametersSchema with
      | nil =>
        rw [hsch] at hf
        simp [extractRequired] at hf
      | cons _ _ => rfl
    have hsome : (List.find? (fun f => (args.lookup f).isNone)
        (extractRequired tool.ParametersSchema)).isSome := by
      rw [List.find?_isSome]
      exact ⟨f, hf, hnone⟩
    obtain ⟨f', hf'⟩ := Option.isSome_iff_exists.mp hsome
    refine ⟨f', ?_⟩
    simp only [ValidateCall, htool, hne, Bool.false_eq_true, if_false, hf']
  · intro hall properties a v pm t hprops hmem hpm hty hbad
    obtain ⟨e, he⟩ := validateArgs_mem_err properties args a v pm t hmem hpm hty hbad
    obtain ⟨hclass, _⟩ := validateArgs_err_shape properties args e he
    have hfind : List.find? (fun f => (args.lookup f).isNone)
        (extractRequired tool.ParametersSchema) = none := by
      rw [List.find?_eq_none]
      intro x hx
      simp only [Bool.not_eq_true, Option.isNone_eq_false_iff]
      exact hall x hx
    have hne : tool.ParametersSchema.isEmpty = false := by
      cases hsch : tool.ParametersSchema with
      | nil =>
        rw [hsch] at hprops
        exact Option.noConfusion hprops
      | cons _ _ => rfl
    refine ⟨e, ?_, hclass⟩
    simp only [ValidateCall, htool, hne, Bool.false_eq_true, if_false, hfind, hprops]
    exact he
  · intro e he
    simp only [ValidateCall, htool] at he
    by_cases hemp : tool.ParametersSchema.isEmpty
    · rw [if_pos hemp] at he
      exact Option.noConfusion he
    · rw [if_neg hemp] at he
      cases hfind : List.find? (fun f => (args.lookup f).isNone)
          (extractRequired tool.ParametersSchema) with
      | some f =>
        simp only [hfind] at he
        injection he with h1
        subst h1
        exact Or.inl ⟨f, rfl, List.mem_of_find?_eq_some hfind⟩
      | none =>
        simp only [hfind] at he
        cases hprops : tool.ParametersSchema.lookup "properties" with
        | none =>
          simp only [hprops] at he
          exact Option.noConfusion he
        | some ps =>
          simp only [hprops] at he
          cases ps <;> try exact Option.noConfusion he
          rename_i props
          obtain ⟨hclass, hmem⟩ := validateArgs_err_shape props args e he
          exact Or.inr ⟨hclass, Exists.intro props ⟨rfl, hmem⟩⟩

/-- Witness for C4 part (1): the calculator tool with required field `y`
omitted yields a `MissingParameter` failure. -/
theorem ValidateCall_spec_witness :
    tvCalc "calculate" = some calcTool ∧
    (∃ f ∈ extractRequired calcTool.ParametersSchema,
      (([("x", GoValue.f64 5)] : List (String × GoValue)).lookup f).isNone) ∧
    (∃ f', ValidateCall tvCalc "calculate" [("x", GoValue.f64 5)]
      = some (.missingParameter f')) := by
  have htool : tvCalc "calculate" = some calcTool := by
    simp [tvCalc, NewToolValidator, calcTool]
  have hmiss : ∃ f ∈ extractRequired calcTool.ParametersSchema,
      (([("x", GoValue.f64 5)] : List (String × GoValue)).lookup f).isNone := by
    refine ⟨"y", ?_, ?_⟩ <;>
      simp [calcTool, extractRequired, List.lookup]
  exact ⟨htool, hmiss,
    (ValidateCall_spec tvCalc "calculate" calcTool [("x", GoValue.f64 5)] htool).1 hmiss⟩

theorem postValidate_noCache_outcome (cfg : ExecCfg) (hc : cfg.cacheCfg = none)
    (st st' : ExecSt) (now : Nat) (c : toolCallRequest) :
    (executeSingleCall.executeSingleCallPostValidate cfg st now c).2
      = (executeSingleCall.executeSingleCallPostValidate cfg st' now c).2 := by
  cases hh : cfg.handlers c.name with
  | none => simp [executeSingleCall.executeSingleCallPostValidate, hc, hh]
  | some handler =>
    rcases hsplit : handler c.args with ⟨r, e⟩
    simp [executeSingleCall.executeSingleCallPostValidate, hc, hh, hsplit]

theorem singleCall_noCache_outcome (cfg : ExecCfg) (hc : cfg.cacheCfg = none)
    (st st' : ExecSt) (now : Nat) (c : toolCallRequest) :
    (executeSingleCall cfg st now c).2 = (executeSingleCall cfg st' now c).2 := by
  cases hv : cfg.validator with
  | none =>
    simp only [executeSingleCall, hv]
    exact postValidate_noCache_outcome cfg hc st st' now c
  | some tv =>
    cases hvc : ValidateCall tv c.name c.args with
    | some e => simp [executeSingleCall, hv, hvc]
    | none =>
      simp only [executeSingleCall, hv, hvc]
      exact postValidate_noCache_outcome cfg hc st st' now c

theorem postValidate_noCache_trace (cfg : ExecCfg) (hc : cfg.cacheCfg = none)
    (st : ExecSt) (now : Nat) (c : toolCallRequest) :
    (executeSingleCall.executeSingleCallPostValidate cfg st now c).1.trace
      = st.trace
        ++ (executeSingleCall.executeSingleCallPostValidate cfg ExecSt.init now c).1.trace := by
  cases hh : cfg.handlers c.name with
  | none => simp [executeSingleCall.executeSingleCallPostValidate, hc, hh, ExecSt.init]
  | some handler =>
    rcases hsplit : handler c.args with ⟨r, e⟩
    simp [executeSingleCall.executeSingleCallPostValidate, hc, hh, hsplit, ExecSt.init]

theorem singleCall_noCache_trace (cfg : ExecCfg) (hc : cfg.cacheCfg = none)
    (st : ExecSt) (now : Nat) (c : toolCallRequest) :
    (executeSingleCall cfg st now c).1.trace
      = st.trace ++ (executeSingleCall cfg ExecSt.init now c).1.trace := by
  cases hv : cfg.validator with
  | none =>
    simp only [executeSingleCall, hv]
    exact postValidate_noCache_trace cfg hc st now c
  | some tv =>
    cases hvc : ValidateCall tv c.name c.args with
    | some e => simp [executeSingleCall, hv, hvc, ExecSt.init]
    | none =>
      simp only [executeSingleCall, hv, hvc]
      exact postValidate_noCache_trace cfg hc st now c

theorem postValidate_name (cfg : ExecCfg) (st : ExecSt) (now : Nat) (c : toolCallRequest) :
    (executeSingleCall.executeSingleCallPostValidate cfg st now c).2.1.name = c.name := by
  cases hcc : cfg.cacheCfg with
  | none =>
    cases hh : cfg.handlers c.name with
    | none => simp [executeSingleCall.executeSingleCallPostValidate, hcc, hh]
    | some handler =>
      rcases hsplit : handler c.args with ⟨r, e⟩
      simp [executeSingleCall.executeSingleCallPostValidate, hcc, hh, hsplit]
  | some p =>
    rcases p with ⟨ttl, ms⟩
    rcases hg : cacheGet ttl st now c.name c.args with ⟨⟨r, e, found⟩, st1⟩
    cases found
    · cases hh : cfg.handlers c.name with
      | none => simp [executeSingleCall.executeSingleCallPostValidate, hcc, hg, hh]
      | some handler =>
        rcases hsplit : handler c.args with ⟨r', e'⟩
        simp [executeSingleCall.executeSingleCallPostValidate, hcc, hg, hh, hsplit]
    · simp [executeSingleCall.executeSingleCallPostValidate, hcc, hg]

theorem singleCall_name (cfg : ExecCfg) (st : ExecSt) (now : Nat) (c : toolCallRequest) :
    (executeSingleCall cfg st now c).2.1.name = c.name := by
  cases hv : cfg.validator with
  | none =>
    simp only [executeSingleCall, hv]
    exact postValidate_name cfg st now c
  | some tv =>
    cases hvc : ValidateCall tv c.name c.args with
    | some e => simp [executeSingleCall, hv, hvc]
    | none =>
      simp only [executeSingleCall, hv, hvc]
      exact postValidate_name cfg st now c

theorem getD_set_char {α : Type} (l : List α) (i j : Nat) (a d : α) :
    (l.set i a).getD j d = if i = j ∧ i < l.length then a else l.getD j d := by
  simp only [List.getD_eq_getElem?_getD, List.getElem?_set]
  by_cases hij : i = j
  · subst hij
    by_cases hlen : i < l.length
    · simp [hlen]
    · have hnone : l[i]? = none := List.getElem?_eq_none (by omega)
      simp [hlen, hnone]
  · simp [hij]

set_option maxHeartbeats 1600000 in
theorem parallelFold_spec (cfg : ExecCfg) (hc : cfg.cacheCfg = none) (now : Nat)
    (calls : List toolCallRequest) :
    ∀ (is : List Nat) (st0 : ExecSt) (res0 : List toolCallResult) (errs0 : List GoErr),
      ((is.foldl (parallelWorkerStep cfg now calls) (st0, res0, errs0)).2.1.length
          = res0.length) ∧
      (∀ j, (is.foldl (parallelWorkerStep cfg now calls) (st0, res0, errs0)).2.1.getD j
              zeroToolCallResult
          = if j ∈ is ∧ j < res0.length then (workerOutcome cfg now calls j).1
            else res0.getD j zeroToolCallResult) ∧
      ((is.foldl (parallelWorkerStep cfg now calls) (st0, res0, errs0)).1.trace
          = st0.trace ++ (is.map (workerTrace cfg now calls)).flatten) ∧
      ((is.foldl (parallelWorkerStep cfg now calls) (st0, res0, errs0)).2.2
          = errs0 ++ is.filterMap (workerErr cfg now calls)) := by
  intro is
  induction is with
  | nil =>
    intro st0 res0 errs0
    exact ⟨rfl, fun j => by simp, by simp, by simp⟩
  | cons i rest ih =>
    intro st0 res0 errs0
    rcases hout : executeSingleCall cfg st0 now (calls.getD i ⟨"", []⟩) with ⟨st1, rr, ee⟩
    have houtc : workerOutcome cfg now calls i = (rr, ee) := by
      rw [workerOutcome, singleCall_noCache_outcome cfg hc ExecSt.init st0 now _, hout]
    have htr : st1.trace = st0.trace ++ workerTrace cfg now calls i := by
      have h2 := singleCall_noCache_trace cfg hc st0 now (calls.getD i ⟨"", []⟩)
      rw [hout] at h2
      exact h2
    cases ee with
    | none =>
      have hstep : parallelWorkerStep cfg now calls (st0, res0, errs0) i
          = ({ st1 with successfulCalls := st1.successfulCalls + 1 },
             res0.set i rr, errs0) := by
        simp only [parallelWorkerStep]
        rw [hout]
      rw [List.foldl_cons, hstep]
      obtain ⟨ihl, ihg, iht, ihe⟩ := ih { st1 with successfulCalls := st1.successfulCalls + 1 }
        (res0.set i rr) errs0
      refine ⟨by rw [ihl, List.length_set], ?_, ?_, ?_⟩
      · intro j
        rw [ihg j, List.length_set, getD_set_char]
        by_cases hjr : j ∈ rest <;> by_cases hjl : j < res0.length <;>
          by_cases hij : i = j <;>
            simp_all [List.mem_cons, eq_comm]
      · rw [iht, htr]
        simp [List.append_assoc]
      · rw [ihe]
        simp [List.filterMap_cons, workerErr, houtc]
    | some e0 =>
      have hstep : parallelWorkerStep cfg now calls (st0, res0, errs0) i
          = ({ st1 with failedCalls := st1.failedCalls + 1 },
             res0.set i rr,
             errs0 ++ [.wrap ("tool \"" ++ (calls.getD i ⟨"", []⟩).name ++ "\" failed") e0]) := by
        simp only [parallelWorkerStep]
        rw [hout]
      rw [List.foldl_cons, hstep]
      obtain ⟨ihl, ihg, iht, ihe⟩ := ih { st1 with failedCalls := st1.failedCalls + 1 }
        (res0.set i rr)
        (errs0 ++ [.wrap ("tool \"" ++ (calls.getD i ⟨"", []⟩).name ++ "\" failed") e0])
      refine ⟨by rw [ihl, List.length_set], ?_, ?_, ?_⟩
      · intro j
        rw [ihg j, List.length_set, getD_set_char]
        by_cases hjr : j ∈ rest <;> by_cases hjl : j < res0.length <;>
          by_cases hij : i = j <;>
            simp_all [List.mem_cons, eq_comm]
      · rw [iht, htr]
        simp [List.append_assoc]
      · rw [ihe]
        simp [List.filterMap_cons, workerErr, houtc]

/-- C3: parallel batch correctness.  For any completion order of the
workers (any permutation of the call indices), every dispatched call's
result lands in the results slot of its originating index — slot `j`
holds exactly worker `j`'s outcome, whose `name` is call `j`'s name — the
batch error surfaced under stop-on-error is the first error recorded on
the error channel, surfaced only after the fold over *all* workers has
finished, and the handler-invocation trace contains every worker's
invocations (a permutation of the in-order trace): siblings are never
cancelled early.  (Stated for a cache-free executor, where a call's
outcome is independent of the interleaving; the executor state is
linearized at whole-call granularity.) -/
theorem executeParallel_spec (cfg : ExecCfg) (hcache : cfg.cacheCfg = none)
    (st : ExecSt) (now : Nat) (calls : List toolCallRequest) (order : List Nat)
    (hperm : order.Perm (List.range calls.length)) :
    ((executeParallel cfg st now calls order).1.length = calls.length) ∧
    (∀ j, j < calls.length →
      (executeParallel cfg st now calls order).1.getD j zeroToolCallResult
        = (workerOutcome cfg now calls j).1 ∧
      ((executeParallel cfg st now calls order).1.getD j zeroToolCallResult).name
        = (calls.getD j ⟨"", []⟩).name) ∧
    ((executeParallel cfg st now calls order).2.1
      = if cfg.stopOnError then (order.filterMap (workerErr cfg now calls)).head?
        else none) ∧
    ((executeParallel cfg st now calls order).2.2.trace).Perm
      (st.trace ++ ((List.range calls.length).map (workerTrace cfg now calls)).flatten) := by
  obtain ⟨hlen, hget, htrace, herrs⟩ := parallelFold_spec cfg hcache now calls order st
    (List.replicate calls.length zeroToolCallResult) []
  rcases hfold : order.foldl (parallelWorkerStep cfg now calls)
      (st, List.replicate calls.length zeroToolCallResult, []) with ⟨stF, resF, errsF⟩
  rw [hfold] at hlen hget htrace herrs
  have hexec : executeParallel cfg st now calls order
      = (resF, if cfg.stopOnError then errsF.head? else none, stF) := by
    simp only [executeParallel]
    rw [hfold]
  rw [hexec]
  simp only [List.length_replicate] at hlen
  refine ⟨hlen, ?_, ?_, ?_⟩
  · intro j hj
    have hmem : j ∈ order := hperm.mem_iff.mpr (List.mem_range.mpr hj)
    have hval := hget j
    rw [List.length_replicate] at hval
    simp only [hmem, hj, and_self, if_true] at hval
    refine ⟨hval, ?_⟩
    rw [hval, workerOutcome]
    exact singleCall_name cfg ExecSt.init now _
  · have herrsF : errsF = order.filterMap (workerErr cfg now calls) := by simpa using herrs
    rw [herrsF]
  · rw [htrace]
    exact List.Perm.append_left _ ((hperm.map _).flatten)

/-- Witness for C3: three independent calls returning `"result1"`,
`"result2"`, `"result3"`, completed in the scrambled order `[2, 0, 1]`,
still settle each at the slot of their originating index. -/
theorem executeParallel_spec_witness :
    ([2, 0, 1] : List Nat).Perm (List.range callsTriple.length) ∧
    (executeParallel parCfgW ExecSt.init 0 callsTriple [2, 0, 1]).1.getD 0 zeroToolCallResult
      = (workerOutcome parCfgW 0 callsTriple 0).1 ∧
    (executeParallel parCfgW ExecSt.init 0 callsTriple [2, 0, 1]).1.getD 1 zeroToolCallResult
      = (workerOutcome parCfgW 0 callsTriple 1).1 ∧
    (executeParallel parCfgW ExecSt.init 0 callsTriple [2, 0, 1]).1.getD 2 zeroToolCallResult
      = (workerOutcome parCfgW 0 callsTriple 2).1 ∧
    (workerOutcome parCfgW 0 callsTriple 1).1 = ⟨"t2", .str "result2", none, false⟩ := by
  have hperm : ([2, 0, 1] : List Nat).Perm (List.range callsTriple.length) := by
    decide
  refine ⟨hperm,
    ((executeParallel_spec parCfgW rfl ExecSt.init 0 callsTriple [2, 0, 1] hperm).2.1 0
      (by decide)).1,
    ((executeParallel_spec parCfgW rfl ExecSt.init 0 callsTriple [2, 0, 1] hperm).2.1 1
      (by decide)).1,
    ((executeParallel_spec parCfgW rfl ExecSt.init 0 callsTriple [2, 0, 1] hperm).2.1 2
      (by decide)).1, ?_⟩
  simp [workerOutcome, executeSingleCall, executeSingleCall.executeSingleCallPostValidate,
    parCfgW, hsTriple, hOk2, callsTriple]

theorem executeSerial_noErr (cfg : ExecCfg) (hc : cfg.cacheCfg = none)
    (hv : cfg.validator = none) (now : Nat) :
    ∀ (calls : List toolCallRequest) (st : ExecSt),
      (∀ c ∈ calls, ∃ h, cfg.handlers c.name = some h ∧ (h c.args).2 = none) →
      (executeSerial cfg st now calls).2.1 = none := by
  intro calls
  induction calls with
  | nil => intro st _; rfl
  | cons c rest ih =>
    intro st hok
    obtain ⟨h, hh, he⟩ := hok c (List.mem_cons_self _ _)
    rcases hsplit : h c.args with ⟨r0, e0⟩
    rw [hsplit] at he
    simp only at he
    subst he
    rw [executeSerial]
    simp only [executeSingleCall, executeSingleCall.executeSingleCallPostValidate,
      hv, hc, hh, hsplit]
    exact ih _ (fun c' hc' => hok c' (List.mem_cons_of_mem _ hc'))

theorem executeBatch_noErr (cfg : ExecCfg) (hc : cfg.cacheCfg = none)
    (hv : cfg.validator = none) (hp : cfg.parallel = false)
    (st : ExecSt) (now : Nat) (calls : List toolCallRequest)
    (hok : ∀ c ∈ calls, ∃ h, cfg.handlers c.name = some h ∧ (h c.args).2 = none) :
    (executeBatch cfg st now calls).2.1 = none := by
  rw [executeBatch]
  by_cases hemp : calls.isEmpty
  · simp [hemp]
  · simp only [hemp, if_false, hp, Bool.false_eq_true]
    exact executeSerial_noErr cfg hc hv now calls _ hok

theorem toolLoopAux_roundLimit (cfg : ExecCfg) (hc : cfg.cacheCfg = none)
    (hv : cfg.validator = none) (hp : cfg.parallel = false)
    (provider : ProviderFn) (now : Nat)
    (hprov : ∀ r, 1 ≤ r → r ≤ cfg.maxRounds →
      ∃ calls answer, provider r = .ok (calls, answer) ∧ calls ≠ [] ∧
        ∀ c ∈ calls, ∃ h, cfg.handlers c.name = some h ∧ (h c.args).2 = none) :
    ∀ (fuel round : Nat) (st : ExecSt),
      round + fuel = cfg.maxRounds + 2 → 1 ≤ round → round ≤ cfg.maxRounds + 1 →
      (toolLoopAux cfg provider now fuel round st).1
        = .error (.named ("exceeded maximum tool call rounds ("
            ++ toString cfg.maxRounds ++ ")")) ∧
      (toolLoopAux cfg provider now fuel round st).2.1
        = List.range' round (cfg.maxRounds + 1 - round) := by
  intro fuel
  induction fuel with
  | zero => intro round st hsum _ hub; omega
  | succ f ih =>
    intro round st hsum hlb hub
    by_cases hgt : round > cfg.maxRounds
    · have hzero : cfg.maxRounds + 1 - round = 0 := by omega
      rw [toolLoopAux, if_pos hgt, hzero]
      exact ⟨rfl, rfl⟩
    · push_neg at hgt
      obtain ⟨calls, answer, hpr, hne, hok⟩ := hprov round hlb hgt
      have hnemp : calls.isEmpty = false := by
        cases calls with
        | nil => exact absurd rfl hne
        | cons _ _ => rfl
      rcases hb : executeBatch cfg st now calls with ⟨res, berr, st1⟩
      have hberr : berr = none := by
        have h0 := executeBatch_noErr cfg hc hv hp st now calls hok
        rw [hb] at h0
        exact h0
      subst hberr
      rw [toolLoopAux, if_neg (by omega), hpr]
      simp only [hnemp, Bool.false_eq_true, if_false, hb]
      obtain ⟨ih1, ih2⟩ := ih (round + 1) st1 (by omega) (by omega) (by omega)
      rcases haux : toolLoopAux cfg provider now f (round + 1) st1 with ⟨out, sent, st2⟩
      rw [haux] at ih1 ih2
      simp only []
      refine ⟨ih1, ?_⟩
      have hrange : cfg.maxRounds + 1 - round = (cfg.maxRounds + 1 - (round + 1)) + 1 := by
        omega
    -- sent list: round :: range' (round+1) (maxRounds - round)
      rw [hrange, List.range'_succ]
      simp only [List.cons.injEq, true_and]
      exact ih2

/-- C1: round-trip termination.  When the provider requests at least one
tool call in every round and every requested tool succeeds, the loop
sends provider requests exactly for rounds `1 … maxRounds` and the
`(maxRounds+1)`-th iteration fails with the `ToolRoundLimitExceeded`
error *before* sending that round's provider request — no round past the
limit executes and no tool from it is invoked.  (Stated for the executor
the OpenAI loop builds — serial, no cache, no validator; the round-count
logic of both providers' loops is identical.) -/
theorem executeToolLoop_roundLimit (cfg : ExecCfg) (provider : ProviderFn) (now : Nat)
    (st : ExecSt) (hc : cfg.cacheCfg = none) (hv : cfg.validator = none)
    (hp : cfg.parallel = false)
    (hprov : ∀ r, 1 ≤ r → r ≤ cfg.maxRounds →
      ∃ calls answer, provider r = .ok (calls, answer) ∧ calls ≠ [] ∧
        ∀ c ∈ calls, ∃ h, cfg.handlers c.name = some h ∧ (h c.args).2 = none) :
    (executeToolLoop cfg provider now st).1
      = .error (.named ("exceeded maximum tool call rounds ("
          ++ toString cfg.maxRounds ++ ")")) ∧
    (executeToolLoop cfg provider now st).2.1 = List.range' 1 cfg.maxRounds := by
  obtain ⟨h1, h2⟩ := toolLoopAux_roundLimit cfg hc hv hp provider now hprov
    (cfg.maxRounds + 1) 1 st (by omega) (by omega) (by omega)
  have hcount : cfg.maxRounds + 1 - 1 = cfg.maxRounds := by omega
  rw [hcount] at h2
  exact ⟨h1, h2⟩

/-- Witness for C1 at `maxRounds = 2` with a provider that requests one
successful tool call every round: rounds 1 and 2 are sent, round 3 fails
with the round-limit error before any request. -/
theorem executeToolLoop_roundLimit_witness :
    cfgLoopW.cacheCfg = none ∧
    (executeToolLoop cfgLoopW provW 0 ExecSt.init).1
      = .error (.named ("exceeded maximum tool call rounds ("
          ++ toString (2 : Nat) ++ ")")) ∧
    (executeToolLoop cfgLoopW provW 0 ExecSt.init).2.1 = List.range' 1 2 := by
  have hprov : ∀ r, 1 ≤ r → r ≤ cfgLoopW.maxRounds →
      ∃ calls answer, provW r = .ok (calls, answer) ∧ calls ≠ [] ∧
        ∀ c ∈ calls, ∃ h, cfgLoopW.handlers c.name = some h ∧ (h c.args).2 = none := by
    intro r _ _
    refine ⟨[⟨"t1", []⟩], "final", rfl, by simp, ?_⟩
    intro c hcmem
    simp only [List.mem_singleton] at hcmem
    subst hcmem
    exact ⟨hOk1, by simp [cfgLoopW, NewToolExecutor, hsTriple], rfl⟩
  obtain ⟨h1, h2⟩ := executeToolLoop_roundLimit cfgLoopW provW 0 ExecSt.init rfl rfl rfl hprov
  exact ⟨rfl, h1, h2⟩
